import Mathlib

/-
Verification of the content-addressed detection pipeline (script.py / utils.py).

The embedding models the stateful Python code as pure functions:
  - the file system is a `Disk` (path existence and content hash per path);
  - Python dicts are association lists (`lookupA` / `insertA` reproduce dict
    lookup and in-place update: an update keeps the key position, a fresh key
    is appended, matching insertion-ordered dicts);
  - Python sets of strings are lists with membership-guarded insertion
    (`addSet`); the nondeterministic iteration order of a Python set in
    `list(set(xs))` is modelled by `List.dedup` (claims about it only use
    membership, length and duplicate-freeness);
  - the pickle store files are a `StoreFile` (missing / corrupt / valid),
    where a corrupt file makes `pickle.load` raise;
  - exceptions are `Except Unit`;
  - the black-box YOLO model is an arbitrary function
    `String -> Except Unit (List DetectionRecord)`;
  - `random.choice` is an arbitrary function `pick : List String -> String`
    assumed to return a member of its (nonempty) argument;
  - numeric detection fields (bounding box, confidence) are carried as
    integers: the code never computes on them, it only stores and copies
    them, so their exact arithmetic type is irrelevant to every claim.
-/

/-- One detection of the black-box model: bounding box, class label,
confidence (fields `Bounding Box`, `Class`, `Confidence` in script.py). -/
structure DetectionRecord where
  boundingBox : List Int
  cls : String
  confidence : Int
deriving DecidableEq, Repr

/-- The per-hash record stored in the results file: the file paths currently
believed to hold this content, and the accumulated detections. -/
structure HashEntry where
  files : List String
  detections : List DetectionRecord
deriving DecidableEq, Repr

/-- The persisted hash-to-entry mapping (hash_to_data in script.py),
as an insertion-ordered dict. -/
abbrev StateMap := List (String × HashEntry)

/-- The value CacheManager.set stores for a key: the dict with single key
'data' wrapping the detections. -/
structure CachePayload where
  data : List DetectionRecord
deriving DecidableEq, Repr

/-- The in-memory content of the detection cache file. -/
abbrev CMap := List (String × CachePayload)

/-- A pickle store file on disk: absent, present but undeserializable
(pickle.load raises), or holding a value. -/
inductive StoreFile (α : Type) where
  | missing
  | corrupt
  | valid (content : α)
deriving DecidableEq, Repr

/-- The file system as seen by the scripts: which paths exist
(os.path.exists) and the content hash of each path
(FileManager.generate_cache_key, the MD5 of the file's bytes). -/
structure Disk where
  pathExists : String → Bool
  hashOf : String → String

/-- Dict lookup: the value stored at a key, if any. -/
def lookupA {β : Type} : List (String × β) → String → Option β
  | [], _ => none
  | (k, v) :: rest, key => if k = key then some v else lookupA rest key

/-- Dict update: replace the value at an existing key in place, or append a
fresh key at the end (Python insertion-ordered dict assignment). -/
def insertA {β : Type} : List (String × β) → String → β → List (String × β)
  | [], key, val => [(key, val)]
  | (k, v) :: rest, key, val =>
    if k = key then (key, val) :: rest else (k, v) :: insertA rest key val

/-- Python set.add on a set modelled as a duplicate-free list. -/
def addSet (s : List String) (x : String) : List String :=
  if x ∈ s then s else s ++ [x]

/-- CacheManager._load_cache: return {} if the file is absent, otherwise
unpickle it; a corrupt file makes pickle.load raise (there is no
try/except in this method). -/
def CacheManager._load_cache : StoreFile CMap → Except Unit CMap
  | .missing => .ok []
  | .corrupt => .error ()
  | .valid c => .ok c

/-- CacheManager._save_cache: rewrite the whole store file. -/
def CacheManager._save_cache (c : CMap) : StoreFile CMap :=
  .valid c

/-- CacheManager.get: load the entire cache, then look the key up
(cache.get(key, None)). -/
def CacheManager.get (store : StoreFile CMap) (key : String) :
    Except Unit (Option CachePayload) :=
  match CacheManager._load_cache store with
  | .error e => .error e
  | .ok c => .ok (lookupA c key)

/-- CacheManager.set: load the entire cache, bind the key to the payload
dict, and rewrite the whole store. -/
def CacheManager.set (store : StoreFile CMap) (key : String)
    (d : List DetectionRecord) : Except Unit (StoreFile CMap) :=
  match CacheManager._load_cache store with
  | .error e => .error e
  | .ok c => .ok (CacheManager._save_cache (insertA c key ⟨d⟩))

/-- FileManager.load_results: unpickle the results file, returning {} on any
exception (missing or corrupt file alike; the method body is wrapped in
try/except). -/
def FileManager.load_results : StoreFile StateMap → StateMap
  | .valid m => m
  | _ => []

/-- ObjectDetector.detect_objects on one image, threading the cache store
file. Returns the outcome ((hash, detections) or a raised error), the cache
store after the call, and how many times the black-box model was invoked.
On a cache hit the model is not invoked; on a miss the model runs and, if it
succeeds, the result is cached; if the model raises, the error propagates
and the cache file is left as it was. -/
def ObjectDetector.detect_objects (d : Disk)
    (model : String → Except Unit (List DetectionRecord))
    (store : StoreFile CMap) (image_path : String) :
    Except Unit (String × List DetectionRecord) × StoreFile CMap × Nat :=
  let cache_key := d.hashOf image_path
  match CacheManager.get store cache_key with
  | .error e => (.error e, store, 0)
  | .ok (some cached) => (.ok (cache_key, cached.data), store, 0)
  | .ok none =>
    match model image_path with
    | .error e => (.error e, store, 1)
    | .ok detections =>
      match CacheManager.set store cache_key detections with
      | .error e => (.error e, store, 1)
      | .ok store' => (.ok (cache_key, detections), store', 1)

/-- One iteration of the reconciliation loop of
BatchProcessor.get_unprocessed_files, handling one scanned path:
  - hash already known, none of its recorded paths exist, the scanned path
    exists and is not recorded: replace the files list with [file];
  - hash already known, some recorded path exists, the scanned path exists
    and is not recorded: append it to the files list;
  - hash unknown and the path exists: create the entry and mark the path as
    requiring detection. -/
def reconStep (d : Disk) (st : StateMap) (up : List String) (f : String) :
    StateMap × List String :=
  let h := d.hashOf f
  match lookupA st h with
  | some entry =>
    if ∃ p ∈ entry.files, d.pathExists p = true then
      if d.pathExists f = true ∧ f ∉ entry.files then
        (insertA st h { entry with files := entry.files ++ [f] }, up)
      else (st, up)
    else
      if d.pathExists f = true ∧ f ∉ entry.files then
        (insertA st h { entry with files := [f] }, up)
      else (st, up)
  | none =>
    if d.pathExists f = true then
      (insertA st h { files := [f], detections := [] }, up ++ [f])
    else (st, up)

/-- The reconciliation loop over all scanned paths. -/
def reconLoop (d : Disk) : List String → StateMap → List String →
    StateMap × List String
  | [], st, up => (st, up)
  | f :: fs, st, up => reconLoop d fs (reconStep d st up f).1 (reconStep d st up f).2

/-- The defensive deduplication pass at the end of get_unprocessed_files:
files = list(set(files)) for every entry. -/
def dedupeFiles (st : StateMap) : StateMap :=
  st.map (fun he => (he.1, { he.2 with files := he.2.files.dedup }))

/-- BatchProcessor.get_unprocessed_files: merge the directory scan into the
loaded persisted state and collect the paths requiring fresh detection. -/
def BatchProcessor.get_unprocessed_files (d : Disk) (prior : StateMap)
    (scan : List String) : StateMap × List String :=
  let r := reconLoop d scan prior []
  (dedupeFiles r.1, r.2)

/-- The loop body of BatchProcessor.process_unprocessed_files: run the
detector on each still-existing unprocessed path, fill in the entry's
detections only when they are still empty, and record the path under its
hash if absent. A missing hash key would be a Python KeyError, modelled as
an error; a raised detection error aborts the loop. The final Nat counts
black-box model invocations. -/
def processLoop (d : Disk) (model : String → Except Unit (List DetectionRecord)) :
    List String → StateMap → StoreFile CMap → Nat →
    Except Unit (StateMap × StoreFile CMap × Nat)
  | [], st, store, calls => .ok (st, store, calls)
  | f :: fs, st, store, calls =>
    if d.pathExists f = true then
      match ObjectDetector.detect_objects d model store f with
      | (.error e, _, _) => .error e
      | (.ok (h, dets), store', c) =>
        match lookupA st h with
        | none => .error ()
        | some entry =>
          let entry1 := if entry.detections = [] then { entry with detections := dets } else entry
          let entry2 := if f ∈ entry1.files then entry1
                        else { entry1 with files := entry1.files ++ [f] }
          processLoop d model fs (insertA st h entry2) store' (calls + c)
    else processLoop d model fs st store calls

/-- BatchProcessor.process_unprocessed_files (minus the final save, which
persists the returned state unchanged). -/
def BatchProcessor.process_unprocessed_files (d : Disk)
    (model : String → Except Unit (List DetectionRecord))
    (unprocessed : List String) (st : StateMap) (store : StoreFile CMap) :
    Except Unit (StateMap × StoreFile CMap × Nat) :=
  processLoop d model unprocessed st store 0

/-- Modelled from the spec, for comparison with the code: the paths marked
for fresh detection are, for each content hash not in the seen set, the
first existing scanned path carrying that hash. -/
def firstNewPaths (d : Disk) : List String → List String → List String
  | [], _ => []
  | f :: fs, seen =>
    if d.hashOf f ∈ seen then firstNewPaths d fs seen
    else if d.pathExists f = true then f :: firstNewPaths d fs (d.hashOf f :: seen)
    else firstNewPaths d fs seen

/-- The class_counts dict of DetectionProcessor.process_json:
class_counts[cls] = class_counts.get(cls, 0) + 1 over the detections. -/
def classCountsAux (acc : List (String × Nat)) :
    List DetectionRecord → List (String × Nat)
  | [] => acc
  | r :: rest =>
    match lookupA acc r.cls with
    | some n => classCountsAux (insertA acc r.cls (n + 1)) rest
    | none => classCountsAux (insertA acc r.cls 1) rest

/-- The tally of class labels for one entry's detections. -/
def classCounts (ds : List DetectionRecord) : List (String × Nat) :=
  classCountsAux [] ds

/-- max(class_counts.values()) (Python max over the dict values; only used
when the tally is nonempty). -/
def maxCount (ds : List DetectionRecord) : Nat :=
  ((classCounts ds).map Prod.snd).foldl Nat.max 0

/-- The tied most-common labels handed to random.choice. -/
def mostCommon (ds : List DetectionRecord) : List String :=
  (((classCounts ds).filter (fun kv => kv.2 == maxCount ds)).map Prod.fst)

/-- The per-hash classification rule of DetectionProcessor.process_json:
person wins outright; otherwise a most-common label chosen by random.choice
(modelled by the pick function); otherwise, with no detections, "others". -/
def classifyDetections (pick : List String → String)
    (ds : List DetectionRecord) : String :=
  if ∃ r ∈ ds, r.cls = "person" then "person"
  else if classCounts ds = [] then "others"
  else pick (mostCommon ds)

/-- The stored count for a label, zero when absent. -/
def cntOf (m : List (String × Nat)) (c : String) : Nat :=
  (lookupA m c).getD 0

/-- The duplicate-tracking step of process_json for one file of one entry:
a path already in file_to_hash flags both its previous hash and the current
hash, and the path is (re)bound to the current hash. -/
def trackOne (file_hash : String)
    (acc : List (String × String) × List String) (file : String) :
    List (String × String) × List String :=
  match lookupA acc.1 file with
  | some prev => (insertA acc.1 file file_hash, addSet (addSet acc.2 prev) file_hash)
  | none => (insertA acc.1 file file_hash, acc.2)

/-- The accumulated state of a DetectionProcessor instance. -/
structure DPAcc where
  file_to_hash : List (String × String)
  duplicates : List String
  all_files : List String
  results : List (String × List String × List String × String)
  unique_classifications : List String

/-- Processing of one (hash, entry) item of the input dict inside
process_json: track duplicates, extend all_files, classify, append the
result record (hash, files, distinct classes, classification). -/
def process_entry (pick : List String → String) (acc : DPAcc)
    (file_hash : String) (e : HashEntry) : DPAcc :=
  let tracked := e.files.foldl (trackOne file_hash) (acc.file_to_hash, acc.duplicates)
  let classification := classifyDetections pick e.detections
  { file_to_hash := tracked.1
    duplicates := tracked.2
    all_files := e.files.foldl addSet acc.all_files
    results := acc.results ++
      [(file_hash, e.files, (classCounts e.detections).map Prod.fst, classification)]
    unique_classifications := addSet acc.unique_classifications classification }

/-- The entry loop of process_json. -/
def processEntries (pick : List String → String) :
    List (String × HashEntry) → DPAcc → DPAcc
  | [], acc => acc
  | (h, e) :: rest, acc => processEntries pick rest (process_entry pick acc h e)

/-- The output of process_json: results plus metadata (all_files,
duplicates, folder_names). -/
structure DPOutput where
  results : List (String × List String × List String × String)
  all_files : List String
  duplicates : List String
  folder_names : List String
deriving Repr

/-- DetectionProcessor.process_json on a freshly constructed
DetectionProcessor (all accumulators start empty). -/
def DetectionProcessor.process_json (pick : List String → String)
    (input : List (String × HashEntry)) : DPOutput :=
  let acc := processEntries pick input ⟨[], [], [], [], []⟩
  ⟨acc.results, acc.all_files, acc.duplicates, acc.unique_classifications⟩

/-- The (file_to_hash, duplicates) projection of the process_json entry
loop, which no other accumulator field feeds back into. -/
def dupsLoop : List (String × HashEntry) →
    List (String × String) × List String →
    List (String × String) × List String
  | [], a => a
  | (h, e) :: rest, a => dupsLoop rest (e.files.foldl (trackOne h) a)

/-- A path is recorded under a hash somewhere in a list of entries. -/
def pairIn (l : List (String × HashEntry)) (h p : String) : Prop :=
  ∃ e, (h, e) ∈ l ∧ p ∈ e.files

/-- A hash shares one of its recorded paths with a different hash. -/
def shared (l : List (String × HashEntry)) (h : String) : Prop :=
  ∃ p h', pairIn l h p ∧ pairIn l h' p ∧ h' ≠ h

/-- The invariant tying the duplicate-tracking accumulators to the already
processed entries: file_to_hash only ever holds hashes that record the path,
every recorded path is bound in file_to_hash, and the duplicate set is
exactly the hashes sharing a path with a different hash. -/
def DPInv (done : List (String × HashEntry))
    (ftH : List (String × String)) (dups : List String) : Prop :=
  (∀ p h, lookupA ftH p = some h → pairIn done h p) ∧
  (∀ p, (∃ h, pairIn done h p) → (lookupA ftH p).isSome = true) ∧
  (∀ h, h ∈ dups ↔ shared done h)

/-- A scanned path is recorded in the state under its own content hash. -/
def Covered (d : Disk) (st : StateMap) (f : String) : Prop :=
  ∃ e, lookupA st (d.hashOf f) = some e ∧ f ∈ e.files

/-- Every entry's files list is duplicate-free. -/
def NodupFiles (st : StateMap) : Prop :=
  ∀ he ∈ st, (he.2 : HashEntry).files.Nodup

/-- Looking a key up right after binding it yields the bound value. -/
theorem lookupA_insertA_self {β : Type} (l : List (String × β)) (k : String) (v : β) :
    lookupA (insertA l k v) k = some v := by
  induction l with
  | nil => simp [insertA, lookupA]
  | cons hd tl ih =>
    by_cases h : hd.1 = k
    · simp [insertA, lookupA, h]
    · simp [insertA, lookupA, h, ih]

/-- Binding one key leaves lookups of any other key unchanged. -/
theorem lookupA_insertA_ne {β : Type} (l : List (String × β)) (k : String) (v : β)
    (k' : String) (h : k' ≠ k) : lookupA (insertA l k v) k' = lookupA l k' := by
  have h' : ¬k = k' := fun hk => h hk.symm
  induction l with
  | nil => simp [insertA, lookupA, h']
  | cons hd tl ih =>
    by_cases hk : hd.1 = k
    · subst hk
      simp [insertA, lookupA, h']
    · simp [insertA, lookupA, hk, ih]

/-- A successful lookup exhibits a member of the association list. -/
theorem lookupA_mem {β : Type} {l : List (String × β)} {k : String} {v : β}
    (h : lookupA l k = some v) : (k, v) ∈ l := by
  induction l with
  | nil => simp [lookupA] at h
  | cons hd tl ih =>
    by_cases hk : hd.1 = k
    · subst hk
      simp [lookupA] at h
      simp [← h]
    · simp [lookupA, hk] at h
      exact List.mem_cons_of_mem _ (ih h)

/-- A member of an updated association list is an old member or the new
binding. -/
theorem mem_insertA {β : Type} {l : List (String × β)} {k : String} {v : β}
    {x : String × β} (h : x ∈ insertA l k v) : x ∈ l ∨ x = (k, v) := by
  induction l with
  | nil => simpa [insertA] using h
  | cons hd tl ih =>
    by_cases hk : hd.1 = k
    · simp [insertA, hk] at h
      rcases h with h | h
      · exact Or.inr (by simp [h])
      · exact Or.inl (List.mem_cons_of_mem _ h)
    · simp [insertA, hk] at h
      rcases h with h | h
      · exact Or.inl (by simp [h])
      · rcases ih h with h' | h'
        · exact Or.inl (List.mem_cons_of_mem _ h')
        · exact Or.inr h'

/-- Updating an existing key does not change the key sequence. -/
theorem keys_insertA_of_lookup {β : Type} {l : List (String × β)} {k : String}
    {w : β} (h : lookupA l k = some w) (v : β) :
    (insertA l k v).map Prod.fst = l.map Prod.fst := by
  induction l with
  | nil => simp [lookupA] at h
  | cons hd tl ih =>
    by_cases hk : hd.1 = k
    · simp [insertA, hk]
    · simp [lookupA, hk] at h
      simp [insertA, hk, ih h]

/-- Binding a fresh key appends it to the key sequence. -/
theorem keys_insertA_of_none {β : Type} {l : List (String × β)} {k : String}
    (h : lookupA l k = none) (v : β) :
    (insertA l k v).map Prod.fst = l.map Prod.fst ++ [k] := by
  induction l with
  | nil => simp [insertA]
  | cons hd tl ih =>
    by_cases hk : hd.1 = k
    · simp [lookupA, hk] at h
    · simp [lookupA, hk] at h
      simp [insertA, hk, ih h]

/-- A lookup fails exactly when the key is not among the keys. -/
theorem lookupA_none_iff {β : Type} (l : List (String × β)) (k : String) :
    lookupA l k = none ↔ k ∉ l.map Prod.fst := by
  induction l with
  | nil => simp [lookupA]
  | cons hd tl ih =>
    by_cases hk : hd.1 = k
    · simp [lookupA, hk]
    · simp only [lookupA, if_neg hk, List.map_cons, List.mem_cons, ih]
      push_neg
      constructor
      · intro h1
        exact ⟨fun h2 => hk h2.symm, h1⟩
      · intro h1
        exact h1.2

/-- A successful lookup puts the key among the keys. -/
theorem mem_keys_of_lookupA {β : Type} {l : List (String × β)} {k : String}
    {v : β} (h : lookupA l k = some v) : k ∈ l.map Prod.fst := by
  by_contra hk
  rw [← lookupA_none_iff] at hk
  simp [hk] at h

/-- With duplicate-free keys, membership determines the lookup result. -/
theorem lookupA_of_mem_nodup {β : Type} {l : List (String × β)} {k : String}
    {v : β} (hnd : (l.map Prod.fst).Nodup) (h : (k, v) ∈ l) :
    lookupA l k = some v := by
  induction l with
  | nil => simp at h
  | cons hd tl ih =>
    obtain ⟨a, b⟩ := hd
    rw [List.map_cons, List.nodup_cons] at hnd
    rcases List.mem_cons.mp h with h1 | h1
    · simp at h1
      obtain ⟨h1a, h1b⟩ := h1
      subst h1a
      subst h1b
      simp [lookupA]
    · have ha : ¬a = k := by
        intro hak
        subst hak
        exact hnd.1 (by simpa using List.mem_map_of_mem Prod.fst h1)
      simp only [lookupA, if_neg ha]
      exact ih hnd.2 h1

/-- C8 counterexample: loading the detection cache from a corrupt store file
raises (CacheManager._load_cache has no exception handler around
pickle.load), instead of returning an empty mapping as the claim states. -/
theorem C8_corrupt_cache_load_raises :
    CacheManager._load_cache StoreFile.corrupt = .error () := rfl

/-- C8 (amended): a missing store file loads as an empty mapping for both
the cache and the results file, and a corrupt results file also loads as an
empty mapping; but a corrupt cache file makes the cache load raise. -/
theorem C8_load_missing_or_corrupt :
    CacheManager._load_cache StoreFile.missing = .ok ([] : CMap) ∧
    FileManager.load_results StoreFile.missing = ([] : StateMap) ∧
    FileManager.load_results StoreFile.corrupt = ([] : StateMap) ∧
    CacheManager._load_cache StoreFile.corrupt = .error () :=
  ⟨rfl, rfl, rfl, rfl⟩

/-- C9: on a cache miss, if the black-box model raises then
detect_objects propagates the error and the cache store file is returned
unchanged: nothing is written for the failed file's hash. -/
theorem C9_model_failure_leaves_cache_unchanged (d : Disk)
    (model : String → Except Unit (List DetectionRecord))
    (store : StoreFile CMap) (p : String)
    (hmiss : CacheManager.get store (d.hashOf p) = .ok none)
    (hfail : model p = .error ()) :
    ObjectDetector.detect_objects d model store p = (.error (), store, 1) := by
  simp [ObjectDetector.detect_objects, hmiss, hfail]

/-- C9 witness: a concrete run of the theorem on an empty cache and an
always-failing model. -/
theorem C9_model_failure_leaves_cache_unchanged_witness :
    ObjectDetector.detect_objects ⟨fun _ => true, fun _ => "h"⟩
      (fun _ => .error ()) StoreFile.missing "a" =
      (.error (), StoreFile.missing, 1) :=
  C9_model_failure_leaves_cache_unchanged ⟨fun _ => true, fun _ => "h"⟩
    (fun _ => .error ()) StoreFile.missing "a" rfl rfl

/-- C10: CacheManager.set rewrites the whole store, but when it succeeds it
changes the value of no other key: a get of a distinct key returns exactly
what it returned before, and a get of the written key returns the new
payload. -/
theorem C10_cache_set_frame (store store' : StoreFile CMap) (k k' : String)
    (dets : List DetectionRecord) (hne : k' ≠ k)
    (hset : CacheManager.set store k dets = .ok store') :
    CacheManager.get store' k' = CacheManager.get store k' ∧
    CacheManager.get store' k = .ok (some ⟨dets⟩) := by
  have h' : ¬k = k' := fun hk => hne hk.symm
  cases store with
  | missing =>
    simp [CacheManager.set, CacheManager._load_cache, CacheManager._save_cache] at hset
    subst hset
    constructor
    · simp [CacheManager.get, CacheManager._load_cache, insertA, lookupA, h']
    · simp [CacheManager.get, CacheManager._load_cache, insertA, lookupA]
  | corrupt =>
    simp [CacheManager.set, CacheManager._load_cache] at hset
  | valid c =>
    simp [CacheManager.set, CacheManager._load_cache, CacheManager._save_cache] at hset
    subst hset
    constructor
    · simp [CacheManager.get, CacheManager._load_cache,
        lookupA_insertA_ne c k ⟨dets⟩ k' hne]
    · simp [CacheManager.get, CacheManager._load_cache, lookupA_insertA_self]

/-- C10 witness: writing key k into an empty store does not change what a
get of the distinct key j returns, and a get of k sees the payload. -/
theorem C10_cache_set_frame_witness :
    CacheManager.get (StoreFile.valid [("k", ⟨[]⟩)]) "j" =
      CacheManager.get StoreFile.missing "j" ∧
    CacheManager.get (StoreFile.valid [("k", ⟨[]⟩)]) "k" = .ok (some ⟨[]⟩) :=
  C10_cache_set_frame StoreFile.missing (StoreFile.valid [("k", ⟨[]⟩)]) "k" "j" []
    (by decide) rfl

/-- Looking up a hash after the defensive deduplication pass yields the
entry with its files list deduplicated. -/
theorem lookupA_dedupeFiles (st : StateMap) (h : String) :
    lookupA (dedupeFiles st) h =
      (lookupA st h).map (fun e => { e with files := e.files.dedup }) := by
  induction st with
  | nil => simp [dedupeFiles, lookupA]
  | cons hd tl ih =>
    by_cases hk : hd.1 = h
    · simp [dedupeFiles, lookupA, hk]
    · simp only [dedupeFiles, List.map_cons, lookupA, if_neg hk]
      simpa [dedupeFiles] using ih

/-- C2: when a scanned path carries a hash already in the state and none of
that hash's recorded paths still exists, reconciliation replaces the files
list with exactly the new path, keeps the cached detections unchanged, and
does not mark the path as requiring detection. -/
theorem C2_rename_tolerance (d : Disk) (st : StateMap) (f : String) (e : HashEntry)
    (hlu : lookupA st (d.hashOf f) = some e)
    (hstale : ∀ p ∈ e.files, d.pathExists p = false)
    (hf : d.pathExists f = true) :
    lookupA (BatchProcessor.get_unprocessed_files d st [f]).1 (d.hashOf f) =
      some ⟨[f], e.detections⟩ ∧
    (BatchProcessor.get_unprocessed_files d st [f]).2 = [] := by
  have hnotmem : f ∉ e.files := by
    intro hmem
    have := hstale f hmem
    rw [hf] at this
    exact Bool.noConfusion this
  have hdead : ¬∃ p ∈ e.files, d.pathExists p = true := by
    rintro ⟨p, hp, hex⟩
    have := hstale p hp
    rw [hex] at this
    exact Bool.noConfusion this
  have hstep : reconStep d st [] f =
      (insertA st (d.hashOf f) ⟨[f], e.detections⟩, []) := by
    simp only [reconStep, hlu]
    rw [if_neg hdead, if_pos ⟨hf, hnotmem⟩]
  have hrun : BatchProcessor.get_unprocessed_files d st [f] =
      (dedupeFiles (insertA st (d.hashOf f) ⟨[f], e.detections⟩), []) := by
    simp only [BatchProcessor.get_unprocessed_files, reconLoop, hstep]
  rw [hrun]
  constructor
  · rw [lookupA_dedupeFiles, lookupA_insertA_self]
    simp
  · rfl

/-- C2 witness: one old vanished path "old", one new path "new" with the
same content hash; the files list becomes exactly ["new"], the cached
detection survives, and nothing requires re-detection. -/
theorem C2_rename_tolerance_witness :
    lookupA (BatchProcessor.get_unprocessed_files
        ⟨fun p => decide (p = "new"), fun _ => "h"⟩
        [("h", ⟨["old"], [⟨[], "car", 1⟩]⟩)] ["new"]).1 "h" =
      some ⟨["new"], [⟨[], "car", 1⟩]⟩ ∧
    (BatchProcessor.get_unprocessed_files
        ⟨fun p => decide (p = "new"), fun _ => "h"⟩
        [("h", ⟨["old"], [⟨[], "car", 1⟩]⟩)] ["new"]).2 = [] :=
  C2_rename_tolerance ⟨fun p => decide (p = "new"), fun _ => "h"⟩
    [("h", ⟨["old"], [⟨[], "car", 1⟩]⟩)] "new" ⟨["old"], [⟨[], "car", 1⟩]⟩
    (by decide) (by decide) (by decide)

/-- C3: when a scanned path carries a hash already in the state, some
recorded path of that hash still exists, and the scanned path is not yet
recorded, reconciliation appends it: the files list grows by exactly one,
stays duplicate-free, the detections are unchanged, and the path is not
marked as requiring detection. -/
theorem C3_copy_detection (d : Disk) (st : StateMap) (f : String) (e : HashEntry)
    (hlu : lookupA st (d.hashOf f) = some e)
    (halive : ∃ p ∈ e.files, d.pathExists p = true)
    (hnew : f ∉ e.files) (hf : d.pathExists f = true) (hnd : e.files.Nodup) :
    lookupA (BatchProcessor.get_unprocessed_files d st [f]).1 (d.hashOf f) =
      some ⟨e.files ++ [f], e.detections⟩ ∧
    (e.files ++ [f]).length = e.files.length + 1 ∧
    (e.files ++ [f]).Nodup ∧
    (BatchProcessor.get_unprocessed_files d st [f]).2 = [] := by
  have hndapp : (e.files ++ [f]).Nodup := by
    rw [← List.concat_eq_append]
    exact List.Nodup.concat hnew hnd
  have hstep : reconStep d st [] f =
      (insertA st (d.hashOf f) ⟨e.files ++ [f], e.detections⟩, []) := by
    simp only [reconStep, hlu]
    rw [if_pos halive, if_pos ⟨hf, hnew⟩]
  have hrun : BatchProcessor.get_unprocessed_files d st [f] =
      (dedupeFiles (insertA st (d.hashOf f) ⟨e.files ++ [f], e.detections⟩), []) := by
    simp only [BatchProcessor.get_unprocessed_files, reconLoop, hstep]
  rw [hrun]
  refine ⟨?_, by simp, hndapp, rfl⟩
  rw [lookupA_dedupeFiles, lookupA_insertA_self]
  simp [List.Nodup.dedup hndapp]

/-- C3 witness: the recorded path "old" still exists and the copy "copy"
with identical content is appended alongside it. -/
theorem C3_copy_detection_witness :
    lookupA (BatchProcessor.get_unprocessed_files
        ⟨fun _ => true, fun _ => "h"⟩
        [("h", ⟨["old"], [⟨[], "car", 1⟩]⟩)] ["copy"]).1 "h" =
      some ⟨["old", "copy"], [⟨[], "car", 1⟩]⟩ ∧
    (["old"] ++ ["copy"]).length = ["old"].length + 1 ∧
    (["old"] ++ ["copy"]).Nodup ∧
    (BatchProcessor.get_unprocessed_files
        ⟨fun _ => true, fun _ => "h"⟩
        [("h", ⟨["old"], [⟨[], "car", 1⟩]⟩)] ["copy"]).2 = [] :=
  C3_copy_detection ⟨fun _ => true, fun _ => "h"⟩
    [("h", ⟨["old"], [⟨[], "car", 1⟩]⟩)] "copy" ⟨["old"], [⟨[], "car", 1⟩]⟩
    (by decide) ⟨"old", by decide, by decide⟩ (by decide) (by decide) (by decide)

/-- A reconciliation step on a path whose hash is already a key changes no
key and marks nothing for detection. -/
theorem reconStep_known (d : Disk) (st : StateMap) (up : List String) (f : String)
    (e : HashEntry) (hlu : lookupA st (d.hashOf f) = some e) :
    (reconStep d st up f).2 = up ∧
    (reconStep d st up f).1.map Prod.fst = st.map Prod.fst := by
  simp only [reconStep, hlu]
  split_ifs <;> simp [keys_insertA_of_lookup hlu]

/-- A reconciliation step on an existing path with an unseen hash inserts a
fresh entry holding just that path and marks the path for detection. -/
theorem reconStep_new (d : Disk) (st : StateMap) (up : List String) (f : String)
    (hlu : lookupA st (d.hashOf f) = none) (hex : d.pathExists f = true) :
    reconStep d st up f =
      (insertA st (d.hashOf f) ⟨[f], []⟩, up ++ [f]) := by
  simp only [reconStep, hlu]
  rw [if_pos hex]

/-- A reconciliation step on a non-existing path with an unseen hash does
nothing. -/
theorem reconStep_new_dead (d : Disk) (st : StateMap) (up : List String)
    (f : String) (hlu : lookupA st (d.hashOf f) = none)
    (hex : ¬d.pathExists f = true) :
    reconStep d st up f = (st, up) := by
  simp only [reconStep, hlu]
  rw [if_neg hex]

/-- firstNewPaths only depends on the membership of the seen set. -/
theorem firstNewPaths_congr (d : Disk) (fs : List String) :
    ∀ s₁ s₂, (∀ x, x ∈ s₁ ↔ x ∈ s₂) →
    firstNewPaths d fs s₁ = firstNewPaths d fs s₂ := by
  induction fs with
  | nil =>
    intro s₁ s₂ _
    rfl
  | cons f fs ih =>
    intro s₁ s₂ hs
    simp only [firstNewPaths]
    by_cases h1 : d.hashOf f ∈ s₁
    · rw [if_pos h1, if_pos ((hs _).mp h1), ih _ _ hs]
    · rw [if_neg h1, if_neg (fun h => h1 ((hs _).mpr h))]
      by_cases h2 : d.pathExists f = true
      · rw [if_pos h2, if_pos h2]
        exact congrArg (f :: ·) (ih _ _ (fun x => by simp [hs x]))
      · rw [if_neg h2, if_neg h2, ih _ _ hs]

/-- The unprocessed list produced by the reconciliation loop: for each hash
not yet a key, exactly the first existing scanned path carrying it. -/
theorem reconLoop_unprocessed (d : Disk) (scan : List String) (st : StateMap)
    (up : List String) :
    (reconLoop d scan st up).2 = up ++ firstNewPaths d scan (st.map Prod.fst) := by
  induction scan generalizing st up with
  | nil => simp [reconLoop, firstNewPaths]
  | cons f fs ih =>
    simp only [reconLoop]
    cases hlu : lookupA st (d.hashOf f) with
    | some e =>
      obtain ⟨hup, hkeys⟩ := reconStep_known d st up f e hlu
      rw [ih, hup, hkeys]
      have hmem : d.hashOf f ∈ st.map Prod.fst := mem_keys_of_lookupA hlu
      simp only [firstNewPaths, if_pos hmem]
    | none =>
      by_cases hex : d.pathExists f = true
      · rw [reconStep_new d st up f hlu hex]
        have hnotmem : d.hashOf f ∉ st.map Prod.fst := (lookupA_none_iff _ _).mp hlu
        simp only [firstNewPaths, if_neg hnotmem, if_pos hex]
        rw [ih, keys_insertA_of_none hlu,
          firstNewPaths_congr d fs (st.map Prod.fst ++ [d.hashOf f])
            (d.hashOf f :: st.map Prod.fst) (fun x => by simp [or_comm])]
        simp
      · rw [reconStep_new_dead d st up f hlu hex]
        have hnotmem : d.hashOf f ∉ st.map Prod.fst := (lookupA_none_iff _ _).mp hlu
        simp only [firstNewPaths, if_neg hnotmem, if_neg hex]
        exact ih st up

/-- Every path firstNewPaths emits was scanned, exists, and carries a hash
outside the initial seen set. -/
theorem mem_firstNewPaths (d : Disk) (fs : List String) :
    ∀ (seen : List String) (f : String), f ∈ firstNewPaths d fs seen →
    f ∈ fs ∧ d.pathExists f = true ∧ d.hashOf f ∉ seen := by
  induction fs with
  | nil =>
    intro seen f h
    simp [firstNewPaths] at h
  | cons g gs ih =>
    intro seen f h
    simp only [firstNewPaths] at h
    by_cases h1 : d.hashOf g ∈ seen
    · rw [if_pos h1] at h
      obtain ⟨hm, he, hs⟩ := ih seen f h
      exact ⟨List.mem_cons_of_mem _ hm, he, hs⟩
    · rw [if_neg h1] at h
      by_cases h2 : d.pathExists g = true
      · rw [if_pos h2] at h
        rcases List.mem_cons.mp h with rfl | h3
        · exact ⟨List.mem_cons_self _ _, h2, h1⟩
        · obtain ⟨hm, he, hs⟩ := ih _ f h3
          exact ⟨List.mem_cons_of_mem _ hm, he,
            fun hh => hs (List.mem_cons_of_mem _ hh)⟩
      · rw [if_neg h2] at h
        obtain ⟨hm, he, hs⟩ := ih seen f h
        exact ⟨List.mem_cons_of_mem _ hm, he, hs⟩

/-- C4 counterexample: two existing scanned paths with the same previously
unseen content hash. Both have a hash that is not a key of the prior
PersistedState, yet only the first is returned as requiring detection: the
second finds the hash already inserted during the same pass. -/
theorem C4_counterexample :
    (BatchProcessor.get_unprocessed_files ⟨fun _ => true, fun _ => "h"⟩ []
      ["a", "b"]).2 = ["a"] ∧
    lookupA ([] : StateMap) ((⟨fun _ => true, fun _ => "h"⟩ : Disk).hashOf "b") =
      none ∧
    "b" ∉ (BatchProcessor.get_unprocessed_files ⟨fun _ => true, fun _ => "h"⟩ []
      ["a", "b"]).2 := by
  decide

/-- C4 (amended): the list of paths requiring fresh detection contains, for
each content hash that was not a key of the prior PersistedState, exactly
the first existing scanned path carrying that hash; every listed path was
scanned, exists, and its hash was absent from the prior state, but later
scanned paths sharing a new hash with an earlier one are not listed. -/
theorem C4_unprocessed_first_per_new_hash (d : Disk) (prior : StateMap)
    (scan : List String) :
    (BatchProcessor.get_unprocessed_files d prior scan).2 =
      firstNewPaths d scan (prior.map Prod.fst) ∧
    ∀ f ∈ (BatchProcessor.get_unprocessed_files d prior scan).2,
      f ∈ scan ∧ d.pathExists f = true ∧ lookupA prior (d.hashOf f) = none := by
  have h2 : (BatchProcessor.get_unprocessed_files d prior scan).2 =
      (reconLoop d scan prior []).2 := rfl
  constructor
  · rw [h2, reconLoop_unprocessed]
    simp
  · intro f hf
    rw [h2, reconLoop_unprocessed] at hf
    simp only [List.nil_append] at hf
    obtain ⟨hm, he, hs⟩ := mem_firstNewPaths d scan _ f hf
    exact ⟨hm, he, (lookupA_none_iff _ _).mpr hs⟩

/-- C4 amended witness: a concrete run on one fresh path. -/
theorem C4_unprocessed_first_per_new_hash_witness :
    ((BatchProcessor.get_unprocessed_files ⟨fun _ => true, fun _ => "g"⟩ []
        ["x"]).2 =
      firstNewPaths ⟨fun _ => true, fun _ => "g"⟩ ["x"]
        (([] : StateMap).map Prod.fst)) ∧
    ("x" ∈ ["x"] ∧
      (⟨fun _ => true, fun _ => "g"⟩ : Disk).pathExists "x" = true ∧
      lookupA ([] : StateMap)
        ((⟨fun _ => true, fun _ => "g"⟩ : Disk).hashOf "x") = none) :=
  ⟨(C4_unprocessed_first_per_new_hash ⟨fun _ => true, fun _ => "g"⟩ [] ["x"]).1,
    (C4_unprocessed_first_per_new_hash ⟨fun _ => true, fun _ => "g"⟩ [] ["x"]).2
      "x" (by decide)⟩

/-- The processing loop never replaces nonempty detections: an entry that
already carries detections keeps them verbatim through the whole loop. -/
theorem processLoop_preserves_detections (d : Disk)
    (model : String → Except Unit (List DetectionRecord)) (fs : List String) :
    ∀ (st : StateMap) (store : StoreFile CMap) (calls : Nat)
      (st' : StateMap) (store' : StoreFile CMap) (n : Nat),
      processLoop d model fs st store calls = .ok (st', store', n) →
      ∀ (h : String) (e e' : HashEntry), lookupA st h = some e →
      lookupA st' h = some e' → e.detections ≠ [] →
      e'.detections = e.detections := by
  induction fs with
  | nil =>
    intro st store calls st' store' n hrun h e e' he he' hne
    simp only [processLoop, Except.ok.injEq, Prod.mk.injEq] at hrun
    obtain ⟨rfl, rfl, rfl⟩ := hrun
    rw [he] at he'
    cases he'
    rfl
  | cons f fs ih =>
    intro st store calls st' store' n hrun h e e' he he' hne
    simp only [processLoop] at hrun
    by_cases hex : d.pathExists f = true
    · rw [if_pos hex] at hrun
      split at hrun
      · simp at hrun
      · rename_i h₀ dets store₁ c heq
        split at hrun
        · simp at hrun
        · rename_i entry hlu
          by_cases hhh : h₀ = h
          · subst hhh
            rw [he] at hlu
            cases hlu
            simp only [if_neg hne] at hrun
            by_cases hmemf : f ∈ e.files
            · rw [if_pos hmemf] at hrun
              exact ih _ _ _ _ _ _ hrun h₀ e e'
                (by rw [lookupA_insertA_self]) he' hne
            · rw [if_neg hmemf] at hrun
              have := ih _ _ _ _ _ _ hrun h₀ ⟨e.files ++ [f], e.detections⟩ e'
                (by rw [lookupA_insertA_self]) he' hne
              simpa using this
          · exact ih _ _ _ _ _ _ hrun h e e'
              (by
                rw [lookupA_insertA_ne _ _ _ _ (fun hk => hhh hk.symm)]
                exact he) he' hne
    · rw [if_neg hex] at hrun
      exact ih _ _ _ _ _ _ hrun h e e' he he' hne

/-- C6: detections are write-once per hash. If the state already records a
nonempty detections sequence for a hash, the processing step returns that
sequence unchanged: a detection result is stored only into an entry whose
detections are still empty. -/
theorem C6_detections_write_once (d : Disk)
    (model : String → Except Unit (List DetectionRecord)) (up : List String)
    (st : StateMap) (store : StoreFile CMap) (st' : StateMap)
    (store' : StoreFile CMap) (n : Nat) (h : String) (e e' : HashEntry)
    (hrun : BatchProcessor.process_unprocessed_files d model up st store =
      .ok (st', store', n))
    (he : lookupA st h = some e) (he' : lookupA st' h = some e')
    (hne : e.detections ≠ []) :
    e'.detections = e.detections :=
  processLoop_preserves_detections d model up st store 0 st' store' n hrun
    h e e' he he' hne

/-- C6 witness: a hash whose entry already holds a detection is reprocessed
through a path that appends a new file; the stored detections survive
verbatim even though the detector produced a different result. -/
theorem C6_detections_write_once_witness :
    (⟨["a", "b"], [⟨[], "car", 1⟩]⟩ : HashEntry).detections =
      (⟨["a"], [⟨[], "car", 1⟩]⟩ : HashEntry).detections :=
  C6_detections_write_once ⟨fun _ => true, fun _ => "h"⟩
    (fun _ => .ok [⟨[], "dog", 1⟩]) ["b"]
    [("h", ⟨["a"], [⟨[], "car", 1⟩]⟩)] StoreFile.missing
    [("h", ⟨["a", "b"], [⟨[], "car", 1⟩]⟩)]
    (StoreFile.valid [("h", ⟨[⟨[], "dog", 1⟩]⟩)]) 1 "h"
    ⟨["a"], [⟨[], "car", 1⟩]⟩ ⟨["a", "b"], [⟨[], "car", 1⟩]⟩
    rfl rfl rfl (by decide)

/-- Reconciliation of a known hash whose entry is still alive appends a new
existing unrecorded path to the files list. -/
theorem reconStep_append (d : Disk) (st : StateMap) (up : List String)
    (f : String) (e : HashEntry) (hlu : lookupA st (d.hashOf f) = some e)
    (halive : ∃ p ∈ e.files, d.pathExists p = true)
    (hf : d.pathExists f = true) (hmem : f ∉ e.files) :
    reconStep d st up f =
      (insertA st (d.hashOf f) ⟨e.files ++ [f], e.detections⟩, up) := by
  simp only [reconStep, hlu]
  rw [if_pos halive, if_pos ⟨hf, hmem⟩]

/-- A reconciliation step at a key different from a given hash leaves the
lookup of that hash unchanged. -/
theorem reconStep_lookup_other (d : Disk) (st : StateMap) (up : List String)
    (g : String) (h : String) (hne : h ≠ d.hashOf g) :
    lookupA (reconStep d st up g).1 h = lookupA st h := by
  simp only [reconStep]
  split
  · split_ifs <;> simp [lookupA_insertA_ne _ _ _ _ hne]
  · split_ifs <;> simp [lookupA_insertA_ne _ _ _ _ hne]

/-- A reconciliation step on a path that exists and is already recorded
under its hash changes nothing. -/
theorem reconStep_noop (d : Disk) (st : StateMap) (up : List String)
    (f : String) (e : HashEntry) (hf : d.pathExists f = true)
    (hlu : lookupA st (d.hashOf f) = some e) (hmem : f ∈ e.files) :
    reconStep d st up f = (st, up) := by
  simp only [reconStep, hlu]
  rw [if_pos ⟨f, hmem, hf⟩, if_neg (by simp [hmem])]

/-- After its own reconciliation step, an existing scanned path is recorded
under its hash. -/
theorem reconStep_covered_self (d : Disk) (st : StateMap) (up : List String)
    (f : String) (hf : d.pathExists f = true) :
    Covered d (reconStep d st up f).1 f := by
  cases hlu : lookupA st (d.hashOf f) with
  | none =>
    rw [reconStep_new d st up f hlu hf]
    exact ⟨⟨[f], []⟩, lookupA_insertA_self _ _ _, by simp⟩
  | some e =>
    by_cases hmem : f ∈ e.files
    · rw [reconStep_noop d st up f e hf hlu hmem]
      exact ⟨e, hlu, hmem⟩
    · by_cases halive : ∃ p ∈ e.files, d.pathExists p = true
      · rw [reconStep_append d st up f e hlu halive hf hmem]
        exact ⟨_, lookupA_insertA_self _ _ _, by simp⟩
      · have hrepl : reconStep d st up f =
            (insertA st (d.hashOf f) ⟨[f], e.detections⟩, up) := by
          simp only [reconStep, hlu]
          rw [if_neg halive, if_pos ⟨hf, hmem⟩]
        rw [hrepl]
        exact ⟨_, lookupA_insertA_self _ _ _, by simp⟩

/-- A reconciliation step on any path preserves the coverage of an existing
path: the destructive replace branch cannot fire while a recorded path
still exists on disk. -/
theorem reconStep_covered_mono (d : Disk) (st : StateMap) (up : List String)
    (g f : String) (hf : d.pathExists f = true) (hc : Covered d st f) :
    Covered d (reconStep d st up g).1 f := by
  obtain ⟨e, hlu, hmem⟩ := hc
  by_cases hgf : d.hashOf f = d.hashOf g
  · have hlug : lookupA st (d.hashOf g) = some e := by
      rw [← hgf]
      exact hlu
    have halive : ∃ p ∈ e.files, d.pathExists p = true := ⟨f, hmem, hf⟩
    by_cases hcond : d.pathExists g = true ∧ g ∉ e.files
    · rw [reconStep_append d st up g e hlug halive hcond.1 hcond.2]
      refine ⟨⟨e.files ++ [g], e.detections⟩, ?_, by simp [hmem]⟩
      rw [hgf]
      exact lookupA_insertA_self _ _ _
    · have hskip : reconStep d st up g = (st, up) := by
        simp only [reconStep, hlug]
        rw [if_pos halive, if_neg hcond]
      rw [hskip]
      exact ⟨e, hlu, hmem⟩
  · refine ⟨e, ?_, hmem⟩
    rw [reconStep_lookup_other d st up g _ hgf]
    exact hlu

/-- The reconciliation loop preserves coverage of existing paths. -/
theorem reconLoop_covered (d : Disk) (scan : List String) :
    ∀ (st : StateMap) (up : List String) (f : String),
      d.pathExists f = true → Covered d st f →
      Covered d (reconLoop d scan st up).1 f := by
  induction scan with
  | nil =>
    intro st up f _ hc
    exact hc
  | cons g gs ih =>
    intro st up f hf hc
    simp only [reconLoop]
    exact ih _ _ f hf (reconStep_covered_mono d st up g f hf hc)

/-- After the reconciliation loop, every existing scanned path is recorded
under its hash. -/
theorem reconLoop_covered_self (d : Disk) (scan : List String) :
    ∀ (st : StateMap) (up : List String) (f : String), f ∈ scan →
      d.pathExists f = true → Covered d (reconLoop d scan st up).1 f := by
  induction scan with
  | nil =>
    intro st up f hm
    simp at hm
  | cons g gs ih =>
    intro st up f hm hf
    simp only [reconLoop]
    rcases List.mem_cons.mp hm with rfl | hm'
    · exact reconLoop_covered d gs _ _ f hf (reconStep_covered_self d st up f hf)
    · exact ih _ _ f hm' hf

/-- When every scanned path exists and is already recorded under its hash,
the reconciliation loop is the identity and marks nothing for detection. -/
theorem reconLoop_noop (d : Disk) (scan : List String) :
    ∀ (st : StateMap) (up : List String),
      (∀ f ∈ scan, d.pathExists f = true ∧ Covered d st f) →
      reconLoop d scan st up = (st, up) := by
  induction scan with
  | nil =>
    intro st up _
    rfl
  | cons g gs ih =>
    intro st up hall
    obtain ⟨hf, e, hlu, hmem⟩ := hall g (List.mem_cons_self g gs)
    simp only [reconLoop, reconStep_noop d st up g e hf hlu hmem]
    exact ih st up (fun f hf' => hall f (List.mem_cons_of_mem _ hf'))

/-- The deduplication pass leaves every files list duplicate-free. -/
theorem nodupFiles_dedupeFiles (st : StateMap) : NodupFiles (dedupeFiles st) := by
  intro he hmem
  simp only [dedupeFiles, List.mem_map] at hmem
  obtain ⟨x, _, rfl⟩ := hmem
  exact List.nodup_dedup _

/-- On a state whose files lists are already duplicate-free, the
deduplication pass is the identity. -/
theorem dedupeFiles_eq_self (st : StateMap) (h : NodupFiles st) :
    dedupeFiles st = st := by
  induction st with
  | nil => rfl
  | cons hd tl ih =>
    have h1 : hd.2.files.Nodup := h hd (List.mem_cons_self _ _)
    have h2 : NodupFiles tl := fun he hm => h he (List.mem_cons_of_mem _ hm)
    have htl : dedupeFiles tl = tl := ih h2
    simp only [dedupeFiles, List.map_cons] at htl ⊢
    rw [List.Nodup.dedup h1, htl]

/-- The deduplication pass preserves coverage. -/
theorem covered_dedupeFiles (d : Disk) (st : StateMap) (f : String)
    (hc : Covered d st f) : Covered d (dedupeFiles st) f := by
  obtain ⟨e, hlu, hmem⟩ := hc
  refine ⟨{ e with files := e.files.dedup }, ?_, ?_⟩
  · rw [lookupA_dedupeFiles, hlu]
    rfl
  · simpa using List.mem_dedup.mpr hmem

/-- The processing loop preserves coverage: it never removes a recorded
path nor a hash key. -/
theorem processLoop_covered (d : Disk)
    (model : String → Except Unit (List DetectionRecord)) (fs : List String) :
    ∀ (st : StateMap) (store : StoreFile CMap) (calls : Nat)
      (st' : StateMap) (store' : StoreFile CMap) (n : Nat),
      processLoop d model fs st store calls = .ok (st', store', n) →
      ∀ f, Covered d st f → Covered d st' f := by
  induction fs with
  | nil =>
    intro st store calls st' store' n hrun f hc
    simp only [processLoop, Except.ok.injEq, Prod.mk.injEq] at hrun
    obtain ⟨rfl, rfl, rfl⟩ := hrun
    exact hc
  | cons g gs ih =>
    intro st store calls st' store' n hrun f hc
    simp only [processLoop] at hrun
    by_cases hex : d.pathExists g = true
    · rw [if_pos hex] at hrun
      split at hrun
      · simp at hrun
      · rename_i h₀ dets store₁ c heq
        split at hrun
        · simp at hrun
        · rename_i entry hlu
          refine ih _ _ _ _ _ _ hrun f ?_
          obtain ⟨e, hluf, hmem⟩ := hc
          by_cases hhh : d.hashOf f = h₀
          · rw [hhh] at hluf
            rw [hluf] at hlu
            cases hlu
            refine ⟨_, by rw [hhh]; exact lookupA_insertA_self _ _ _, ?_⟩
            by_cases hd1 : entry.detections = []
            · simp only [if_pos hd1]
              by_cases hm2 : g ∈ ({ entry with detections := dets } : HashEntry).files
              · rw [if_pos hm2]
                exact hmem
              · rw [if_neg hm2]
                simp [hmem]
            · simp only [if_neg hd1]
              by_cases hm2 : g ∈ entry.files
              · rw [if_pos hm2]
                exact hmem
              · rw [if_neg hm2]
                simp [hmem]
          · refine ⟨e, ?_, hmem⟩
            rw [lookupA_insertA_ne _ _ _ _ hhh]
            exact hluf
    · rw [if_neg hex] at hrun
      exact ih _ _ _ _ _ _ hrun f hc

/-- The processing loop keeps every files list duplicate-free: a path is
appended only when absent. -/
theorem processLoop_nodupFiles (d : Disk)
    (model : String → Except Unit (List DetectionRecord)) (fs : List String) :
    ∀ (st : StateMap) (store : StoreFile CMap) (calls : Nat)
      (st' : StateMap) (store' : StoreFile CMap) (n : Nat),
      processLoop d model fs st store calls = .ok (st', store', n) →
      NodupFiles st → NodupFiles st' := by
  induction fs with
  | nil =>
    intro st store calls st' store' n hrun hnd
    simp only [processLoop, Except.ok.injEq, Prod.mk.injEq] at hrun
    obtain ⟨rfl, rfl, rfl⟩ := hrun
    exact hnd
  | cons g gs ih =>
    intro st store calls st' store' n hrun hnd
    simp only [processLoop] at hrun
    by_cases hex : d.pathExists g = true
    · rw [if_pos hex] at hrun
      split at hrun
      · simp at hrun
      · rename_i h₀ dets store₁ c heq
        split at hrun
        · simp at hrun
        · rename_i entry hlu
          refine ih _ _ _ _ _ _ hrun ?_
          intro he hmem
          rcases mem_insertA hmem with hm | rfl
          · exact hnd _ hm
          · have hend : entry.files.Nodup := hnd (h₀, entry) (lookupA_mem hlu)
            by_cases hd1 : entry.detections = []
            · simp only [if_pos hd1]
              by_cases hm2 : g ∈ ({ entry with detections := dets } : HashEntry).files
              · rw [if_pos hm2]
                exact hend
              · rw [if_neg hm2]
                simp only []
                rw [← List.concat_eq_append]
                exact List.Nodup.concat (by simpa using hm2) hend
            · simp only [if_neg hd1]
              by_cases hm2 : g ∈ entry.files
              · rw [if_pos hm2]
                exact hend
              · rw [if_neg hm2]
                simp only []
                rw [← List.concat_eq_append]
                exact List.Nodup.concat (by simpa using hm2) hend
    · rw [if_neg hex] at hrun
      exact ih _ _ _ _ _ _ hrun hnd

/-- C1: the detection stage is idempotent. After a completed first run
(reconciliation followed by processing) on a scan of existing paths, a
second reconciliation of the same unchanged scan returns the saved state
verbatim with an empty unprocessed list, and the second processing step
returns the same state, the same cache store, and zero black-box model
invocations. -/
theorem C1_detection_idempotent (d : Disk)
    (model : String → Except Unit (List DetectionRecord))
    (prior : StateMap) (scan : List String) (store : StoreFile CMap)
    (st1 : StateMap) (up1 : List String) (st1' : StateMap)
    (store' : StoreFile CMap) (n : Nat)
    (hscan : ∀ f ∈ scan, d.pathExists f = true)
    (h1 : BatchProcessor.get_unprocessed_files d prior scan = (st1, up1))
    (h2 : BatchProcessor.process_unprocessed_files d model up1 st1 store =
      .ok (st1', store', n)) :
    BatchProcessor.get_unprocessed_files d st1' scan = (st1', []) ∧
    BatchProcessor.process_unprocessed_files d model [] st1' store' =
      .ok (st1', store', 0) := by
  simp only [BatchProcessor.get_unprocessed_files, Prod.mk.injEq] at h1
  obtain ⟨hst1, hup1⟩ := h1
  have hcov1 : ∀ f ∈ scan, Covered d st1 f := by
    intro f hf
    rw [← hst1]
    exact covered_dedupeFiles d _ f
      (reconLoop_covered_self d scan prior [] f hf (hscan f hf))
  have hnd1 : NodupFiles st1 := by
    rw [← hst1]
    exact nodupFiles_dedupeFiles _
  have hcov' : ∀ f ∈ scan, Covered d st1' f := fun f hf =>
    processLoop_covered d model up1 st1 store 0 st1' store' n h2 f (hcov1 f hf)
  have hnd' : NodupFiles st1' :=
    processLoop_nodupFiles d model up1 st1 store 0 st1' store' n h2 hnd1
  have hnoop : reconLoop d scan st1' [] = (st1', []) :=
    reconLoop_noop d scan st1' [] (fun f hf => ⟨hscan f hf, hcov' f hf⟩)
  constructor
  · simp only [BatchProcessor.get_unprocessed_files, hnoop]
    rw [dedupeFiles_eq_self st1' hnd']
  · rfl

/-- C1 witness: one image "a" is detected on the first run; the second run
on the unchanged directory returns the identical state and cache store with
zero model invocations. -/
theorem C1_detection_idempotent_witness :
    BatchProcessor.get_unprocessed_files ⟨fun _ => true, fun _ => "h"⟩
      [("h", ⟨["a"], [⟨[], "car", 1⟩]⟩)] ["a"] =
      ([("h", ⟨["a"], [⟨[], "car", 1⟩]⟩)], []) ∧
    BatchProcessor.process_unprocessed_files ⟨fun _ => true, fun _ => "h"⟩
      (fun _ => .ok [⟨[], "car", 1⟩]) [] [("h", ⟨["a"], [⟨[], "car", 1⟩]⟩)]
      (StoreFile.valid [("h", ⟨[⟨[], "car", 1⟩]⟩)]) =
      .ok ([("h", ⟨["a"], [⟨[], "car", 1⟩]⟩)],
        StoreFile.valid [("h", ⟨[⟨[], "car", 1⟩]⟩)], 0) :=
  C1_detection_idempotent ⟨fun _ => true, fun _ => "h"⟩
    (fun _ => .ok [⟨[], "car", 1⟩]) [] ["a"] StoreFile.missing
    [("h", ⟨["a"], []⟩)] ["a"] [("h", ⟨["a"], [⟨[], "car", 1⟩]⟩)]
    (StoreFile.valid [("h", ⟨[⟨[], "car", 1⟩]⟩)]) 1
    (by decide) (by decide) rfl

/-- The tally dict accumulates exactly the label counts. -/
theorem cntOf_classCountsAux (ds : List DetectionRecord) :
    ∀ (acc : List (String × Nat)) (c : String),
      cntOf (classCountsAux acc ds) c =
        cntOf acc c + (ds.map (fun r => r.cls)).count c := by
  induction ds with
  | nil =>
    intro acc c
    simp [classCountsAux]
  | cons r rest ih =>
    intro acc c
    cases hlu : lookupA acc r.cls with
    | some n =>
      simp only [classCountsAux, hlu]
      rw [ih]
      by_cases hc : c = r.cls
      · subst hc
        unfold cntOf
        rw [lookupA_insertA_self, hlu]
        simp [List.count_cons]
        omega
      · unfold cntOf
        rw [lookupA_insertA_ne _ _ _ _ hc]
        simp [List.count_cons, hc]
    | none =>
      simp only [classCountsAux, hlu]
      rw [ih]
      by_cases hc : c = r.cls
      · subst hc
        unfold cntOf
        rw [lookupA_insertA_self, hlu]
        simp [List.count_cons]
        omega
      · unfold cntOf
        rw [lookupA_insertA_ne _ _ _ _ hc]
        simp [List.count_cons, hc]

/-- Membership among the keys of an updated association list. -/
theorem mem_keys_insertA {β : Type} (l : List (String × β)) (k : String) (v : β)
    (c : String) :
    c ∈ (insertA l k v).map Prod.fst ↔ c ∈ l.map Prod.fst ∨ c = k := by
  cases hlu : lookupA l k with
  | some w =>
    rw [keys_insertA_of_lookup hlu]
    constructor
    · exact Or.inl
    · rintro (h | rfl)
      · exact h
      · exact mem_keys_of_lookupA hlu
  | none =>
    rw [keys_insertA_of_none hlu]
    simp

/-- The tally keys are exactly the labels occurring in the detections. -/
theorem keys_classCountsAux (ds : List DetectionRecord) :
    ∀ (acc : List (String × Nat)) (c : String),
      c ∈ (classCountsAux acc ds).map Prod.fst ↔
        c ∈ acc.map Prod.fst ∨ c ∈ ds.map (fun r => r.cls) := by
  induction ds with
  | nil =>
    intro acc c
    simp [classCountsAux]
  | cons r rest ih =>
    intro acc c
    cases hlu : lookupA acc r.cls with
    | some n =>
      simp only [classCountsAux, hlu]
      rw [ih, mem_keys_insertA]
      simp only [List.map_cons, List.mem_cons]
      tauto
    | none =>
      simp only [classCountsAux, hlu]
      rw [ih, mem_keys_insertA]
      simp only [List.map_cons, List.mem_cons]
      tauto

/-- The tally keeps its keys duplicate-free. -/
theorem keys_nodup_classCountsAux (ds : List DetectionRecord) :
    ∀ acc : List (String × Nat), (acc.map Prod.fst).Nodup →
      ((classCountsAux acc ds).map Prod.fst).Nodup := by
  induction ds with
  | nil =>
    intro acc h
    simpa [classCountsAux] using h
  | cons r rest ih =>
    intro acc h
    cases hlu : lookupA acc r.cls with
    | some n =>
      simp only [classCountsAux, hlu]
      refine ih _ ?_
      rw [keys_insertA_of_lookup hlu]
      exact h
    | none =>
      simp only [classCountsAux, hlu]
      refine ih _ ?_
      rw [keys_insertA_of_none hlu, ← List.concat_eq_append]
      exact List.Nodup.concat ((lookupA_none_iff _ _).mp hlu) h

/-- A stored tally value is the count of its label. -/
theorem classCounts_lookup (ds : List DetectionRecord) (c : String) (n : Nat)
    (h : lookupA (classCounts ds) c = some n) :
    n = (ds.map (fun r => r.cls)).count c := by
  have hc := cntOf_classCountsAux ds [] c
  unfold cntOf at hc
  rw [show classCountsAux [] ds = classCounts ds from rfl, h] at hc
  simpa [lookupA] using hc

/-- The tally has a key exactly for each occurring label. -/
theorem classCounts_keys (ds : List DetectionRecord) (c : String) :
    c ∈ (classCounts ds).map Prod.fst ↔ c ∈ ds.map (fun r => r.cls) := by
  have := keys_classCountsAux ds [] c
  simpa [lookupA] using this

/-- The tally's keys are duplicate-free. -/
theorem classCounts_keys_nodup (ds : List DetectionRecord) :
    ((classCounts ds).map Prod.fst).Nodup :=
  keys_nodup_classCountsAux ds [] (by simp)

/-- Every tally item pairs an occurring label with its count. -/
theorem mem_classCounts (ds : List DetectionRecord) (c : String) (n : Nat)
    (h : (c, n) ∈ classCounts ds) :
    n = (ds.map (fun r => r.cls)).count c ∧ c ∈ ds.map (fun r => r.cls) := by
  have hl := lookupA_of_mem_nodup (classCounts_keys_nodup ds) h
  exact ⟨classCounts_lookup ds c n hl,
    (classCounts_keys ds c).mp (List.mem_map_of_mem Prod.fst h)⟩

/-- The seed of a running maximum never exceeds the result. -/
theorem init_le_foldl_max (l : List Nat) : ∀ a, a ≤ l.foldl Nat.max a := by
  induction l with
  | nil =>
    intro a
    simp
  | cons y ys ih =>
    intro a
    simp only [List.foldl_cons]
    calc a ≤ Nat.max a y := Nat.le_max_left a y
      _ ≤ ys.foldl Nat.max (Nat.max a y) := ih _

/-- Every element of a list is bounded by the running maximum. -/
theorem le_foldl_max (l : List Nat) : ∀ (a x : Nat), x ∈ l → x ≤ l.foldl Nat.max a := by
  induction l with
  | nil =>
    intro a x h
    simp at h
  | cons y ys ih =>
    intro a x h
    simp only [List.foldl_cons]
    rcases List.mem_cons.mp h with rfl | h'
    · calc x ≤ Nat.max a x := Nat.le_max_right a x
        _ ≤ ys.foldl Nat.max (Nat.max a x) := init_le_foldl_max ys _
    · exact ih _ x h'

/-- The running maximum is attained in the list or equals its seed. -/
theorem foldl_max_mem (l : List Nat) : ∀ a, l.foldl Nat.max a ∈ l ∨ l.foldl Nat.max a = a := by
  induction l with
  | nil =>
    intro a
    simp
  | cons y ys ih =>
    intro a
    simp only [List.foldl_cons]
    rcases ih (Nat.max a y) with h | h
    · exact Or.inl (List.mem_cons_of_mem _ h)
    · rw [h]
      rcases Nat.le_total a y with h2 | h2
      · refine Or.inl ?_
        rw [show Nat.max a y = y from Nat.max_eq_right h2]
        exact List.mem_cons_self _ _
      · exact Or.inr (Nat.max_eq_left h2)

/-- Every label in the tied most-common list occurs in the detections and
attains the maximal count. -/
theorem mem_mostCommon (ds : List DetectionRecord) (c : String)
    (h : c ∈ mostCommon ds) :
    c ∈ ds.map (fun r => r.cls) ∧
    (ds.map (fun r => r.cls)).count c = maxCount ds := by
  unfold mostCommon at h
  rw [List.mem_map] at h
  obtain ⟨kv, hkv, rfl⟩ := h
  rw [List.mem_filter] at hkv
  obtain ⟨hmem, heq⟩ := hkv
  simp only [beq_iff_eq] at heq
  have h1 := mem_classCounts ds kv.1 kv.2 hmem
  refine ⟨h1.2, ?_⟩
  rw [← h1.1]
  exact heq

/-- No label's count exceeds the maximal count. -/
theorem count_le_maxCount (ds : List DetectionRecord) (c : String) :
    (ds.map (fun r => r.cls)).count c ≤ maxCount ds := by
  by_cases hmem : c ∈ ds.map (fun r => r.cls)
  · have hk : c ∈ (classCounts ds).map Prod.fst := (classCounts_keys ds c).mpr hmem
    rw [List.mem_map] at hk
    obtain ⟨kv, hkv, rfl⟩ := hk
    have h1 := mem_classCounts ds kv.1 kv.2 hkv
    rw [← h1.1]
    exact le_foldl_max _ 0 kv.2 (List.mem_map_of_mem Prod.snd hkv)
  · rw [List.count_eq_zero.mpr hmem]
    exact Nat.zero_le _

/-- With at least one detection the tied most-common list is nonempty. -/
theorem mostCommon_ne_nil (ds : List DetectionRecord) (hne : ds ≠ []) :
    mostCommon ds ≠ [] := by
  obtain ⟨r, rest, rfl⟩ : ∃ r rest, ds = r :: rest := by
    cases ds with
    | nil => exact absurd rfl hne
    | cons r rest => exact ⟨r, rest, rfl⟩
  have hk : r.cls ∈ (classCounts (r :: rest)).map Prod.fst :=
    (classCounts_keys _ _).mpr (by simp)
  have hcc : classCounts (r :: rest) ≠ [] := by
    intro h0
    rw [h0] at hk
    simp at hk
  rcases foldl_max_mem ((classCounts (r :: rest)).map Prod.snd) 0 with hmem | h0
  · rw [List.mem_map] at hmem
    obtain ⟨kv, hkv, hv⟩ := hmem
    have hv' : kv.2 = maxCount (r :: rest) := hv
    intro hmc
    have hin : kv.1 ∈ mostCommon (r :: rest) := by
      unfold mostCommon
      refine List.mem_map_of_mem Prod.fst ?_
      rw [List.mem_filter]
      exact ⟨hkv, by simp [hv']⟩
    rw [hmc] at hin
    simp at hin
  · exfalso
    obtain ⟨kv, hkv⟩ : ∃ kv, kv ∈ classCounts (r :: rest) := by
      cases hcl : classCounts (r :: rest) with
      | nil => exact absurd hcl hcc
      | cons a l =>
        exact ⟨a, by simp [hcl]⟩
    have h1 := mem_classCounts _ kv.1 kv.2 hkv
    have hpos : 0 < kv.2 := by
      rw [h1.1]
      exact List.count_pos_iff.mpr h1.2
    have hle : kv.2 ≤ maxCount (r :: rest) :=
      le_foldl_max _ 0 kv.2 (List.mem_map_of_mem Prod.snd hkv)
    have h0' : maxCount (r :: rest) = 0 := h0
    omega

/-- C5: the per-hash classification follows the three-step rule. Any
"person" detection forces "person"; with no detections the result is
"others"; otherwise the result is an occurring label of maximal count,
whichever one the random choice picks among the tied labels. -/
theorem C5_classification_rule (pick : List String → String)
    (hpick : ∀ l : List String, l ≠ [] → pick l ∈ l)
    (ds : List DetectionRecord) :
    ((∃ r ∈ ds, r.cls = "person") → classifyDetections pick ds = "person") ∧
    (ds = [] → classifyDetections pick ds = "others") ∧
    (ds ≠ [] → (∀ r ∈ ds, r.cls ≠ "person") →
      classifyDetections pick ds ∈ ds.map (fun r => r.cls) ∧
      ∀ c : String, (ds.map (fun r => r.cls)).count c ≤
        (ds.map (fun r => r.cls)).count (classifyDetections pick ds)) := by
  refine ⟨?_, ?_, ?_⟩
  · intro hp
    unfold classifyDetections
    rw [if_pos hp]
  · rintro rfl
    simp [classifyDetections, classCounts, classCountsAux]
  · intro hne hnp
    have hp : ¬∃ r ∈ ds, r.cls = "person" := by
      rintro ⟨r, hr, hcl⟩
      exact hnp r hr hcl
    have hcc : classCounts ds ≠ [] := by
      obtain ⟨r, rest, rfl⟩ : ∃ r rest, ds = r :: rest := by
        cases ds with
        | nil => exact absurd rfl hne
        | cons r rest => exact ⟨r, rest, rfl⟩
      intro h0
      have hk : r.cls ∈ (classCounts (r :: rest)).map Prod.fst :=
        (classCounts_keys _ _).mpr (by simp)
      rw [h0] at hk
      simp at hk
    have hcl : classifyDetections pick ds = pick (mostCommon ds) := by
      unfold classifyDetections
      rw [if_neg hp, if_neg hcc]
    have hmc := hpick (mostCommon ds) (mostCommon_ne_nil ds hne)
    have h2 := mem_mostCommon ds _ hmc
    rw [hcl]
    refine ⟨h2.1, ?_⟩
    intro c
    rw [h2.2]
    exact count_le_maxCount ds c

/-- C5 witness: two "car" detections and one "dog" detection with a
head-picking choice function; the classification is an occurring label and
its count dominates the count of "dog". -/
theorem C5_classification_rule_witness :
    classifyDetections (fun l => l.headD "")
      [⟨[], "car", 1⟩, ⟨[], "dog", 2⟩, ⟨[], "car", 3⟩] ∈
      ([⟨[], "car", 1⟩, ⟨[], "dog", 2⟩, ⟨[], "car", 3⟩] :
        List DetectionRecord).map (fun r => r.cls) ∧
    (([⟨[], "car", 1⟩, ⟨[], "dog", 2⟩, ⟨[], "car", 3⟩] :
        List DetectionRecord).map (fun r => r.cls)).count "dog" ≤
      (([⟨[], "car", 1⟩, ⟨[], "dog", 2⟩, ⟨[], "car", 3⟩] :
        List DetectionRecord).map (fun r => r.cls)).count
        (classifyDetections (fun l => l.headD "")
          [⟨[], "car", 1⟩, ⟨[], "dog", 2⟩, ⟨[], "car", 3⟩]) := by
  have h := (C5_classification_rule (fun l => l.headD "")
    (fun l hl => by
      cases l with
      | nil => exact absurd rfl hl
      | cons a t => simp [List.headD])
    [⟨[], "car", 1⟩, ⟨[], "dog", 2⟩, ⟨[], "car", 3⟩]).2.2
    (by decide) (by decide)
  exact ⟨h.1, h.2 "dog"⟩

/-- Membership in a modelled Python set after an add. -/
theorem mem_addSet {s : List String} {x y : String} :
    y ∈ addSet s x ↔ y ∈ s ∨ y = x := by
  unfold addSet
  by_cases h : x ∈ s
  · simp [h]
    intro hy
    subst hy
    exact h
  · simp [h]

/-- The (file_to_hash, duplicates) pair threaded through the process_json
entry loop equals the dedicated dupsLoop projection. -/
theorem processEntries_track (pick : List String → String)
    (rest : List (String × HashEntry)) :
    ∀ acc : DPAcc,
      ((processEntries pick rest acc).file_to_hash,
       (processEntries pick rest acc).duplicates) =
      dupsLoop rest (acc.file_to_hash, acc.duplicates) := by
  induction rest with
  | nil =>
    intro acc
    rfl
  | cons x rest ih =>
    obtain ⟨h, e⟩ := x
    intro acc
    simp only [processEntries, dupsLoop]
    rw [ih]
    rfl

/-- Inner duplicate-tracking fold: the path-to-hash map after one entry
binds exactly that entry's paths to its hash and keeps all other bindings. -/
theorem trackFold_lookup (h₀ : String) (files : List String) :
    ∀ (ftH : List (String × String)) (dups : List String) (p : String),
      lookupA (files.foldl (trackOne h₀) (ftH, dups)).1 p =
        if p ∈ files then some h₀ else lookupA ftH p := by
  induction files with
  | nil =>
    intro ftH dups p
    simp
  | cons q fs ih =>
    intro ftH dups p
    simp only [List.foldl_cons]
    cases hq : lookupA ftH q with
    | some prev =>
      simp only [trackOne, hq]
      rw [ih]
      by_cases hp : p ∈ fs
      · simp [hp]
      · by_cases hpq : p = q
        · subst hpq
          simp [hp, lookupA_insertA_self]
        · simp [hp, hpq, lookupA_insertA_ne _ _ _ _ hpq]
    | none =>
      simp only [trackOne, hq]
      rw [ih]
      by_cases hp : p ∈ fs
      · simp [hp]
      · by_cases hpq : p = q
        · subst hpq
          simp [hp, lookupA_insertA_self]
        · simp [hp, hpq, lookupA_insertA_ne _ _ _ _ hpq]

/-- Inner duplicate-tracking fold: a hash lands in the duplicate set during
one entry exactly when it was already there, or a path of the entry was
previously bound to it, or it is the entry's own hash and some path of the
entry was previously bound to any hash. -/
theorem trackFold_dups (h₀ : String) (files : List String) :
    ∀ (ftH : List (String × String)) (dups : List String), files.Nodup →
    ∀ h : String,
      (h ∈ (files.foldl (trackOne h₀) (ftH, dups)).2 ↔
        h ∈ dups ∨ (∃ p ∈ files, lookupA ftH p = some h) ∨
        (h = h₀ ∧ ∃ p ∈ files, (lookupA ftH p).isSome = true)) := by
  induction files with
  | nil =>
    intro ftH dups _ h
    simp
  | cons q fs ih =>
    intro ftH dups hnd h
    rw [List.nodup_cons] at hnd
    obtain ⟨hqfs, hndfs⟩ := hnd
    simp only [List.foldl_cons]
    cases hq : lookupA ftH q with
    | some prev =>
      simp only [trackOne, hq]
      rw [ih _ _ hndfs h]
      constructor
      · rintro (hd | ⟨p, hp, hl⟩ | ⟨rfl, p, hp, hs⟩)
        · rcases mem_addSet.mp hd with hd2 | rfl
          · rcases mem_addSet.mp hd2 with hd3 | rfl
            · exact Or.inl hd3
            · exact Or.inr (Or.inl ⟨q, List.mem_cons_self _ _, hq⟩)
          · exact Or.inr (Or.inr ⟨rfl, q, List.mem_cons_self _ _, by simp [hq]⟩)
        · have hpq : p ≠ q := fun hh => hqfs (hh ▸ hp)
          rw [lookupA_insertA_ne _ _ _ _ hpq] at hl
          exact Or.inr (Or.inl ⟨p, List.mem_cons_of_mem _ hp, hl⟩)
        · have hpq : p ≠ q := fun hh => hqfs (hh ▸ hp)
          rw [lookupA_insertA_ne _ _ _ _ hpq] at hs
          exact Or.inr (Or.inr ⟨rfl, p, List.mem_cons_of_mem _ hp, hs⟩)
      · rintro (hd | ⟨p, hp, hl⟩ | ⟨rfl, p, hp, hs⟩)
        · exact Or.inl (mem_addSet.mpr (Or.inl (mem_addSet.mpr (Or.inl hd))))
        · rcases List.mem_cons.mp hp with rfl | hp'
          · rw [hq] at hl
            cases hl
            exact Or.inl (mem_addSet.mpr (Or.inl (mem_addSet.mpr (Or.inr rfl))))
          · have hpq : p ≠ q := fun hh => hqfs (hh ▸ hp')
            exact Or.inr (Or.inl ⟨p, hp',
              by rw [lookupA_insertA_ne _ _ _ _ hpq]; exact hl⟩)
        · rcases List.mem_cons.mp hp with rfl | hp'
          · exact Or.inl (mem_addSet.mpr (Or.inr rfl))
          · have hpq : p ≠ q := fun hh => hqfs (hh ▸ hp')
            exact Or.inr (Or.inr ⟨rfl, p, hp',
              by rw [lookupA_insertA_ne _ _ _ _ hpq]; exact hs⟩)
    | none =>
      simp only [trackOne, hq]
      rw [ih _ _ hndfs h]
      constructor
      · rintro (hd | ⟨p, hp, hl⟩ | ⟨rfl, p, hp, hs⟩)
        · exact Or.inl hd
        · have hpq : p ≠ q := fun hh => hqfs (hh ▸ hp)
          rw [lookupA_insertA_ne _ _ _ _ hpq] at hl
          exact Or.inr (Or.inl ⟨p, List.mem_cons_of_mem _ hp, hl⟩)
        · have hpq : p ≠ q := fun hh => hqfs (hh ▸ hp)
          rw [lookupA_insertA_ne _ _ _ _ hpq] at hs
          exact Or.inr (Or.inr ⟨rfl, p, List.mem_cons_of_mem _ hp, hs⟩)
      · rintro (hd | ⟨p, hp, hl⟩ | ⟨rfl, p, hp, hs⟩)
        · exact Or.inl hd
        · rcases List.mem_cons.mp hp with rfl | hp'
          · rw [hq] at hl
            cases hl
          · have hpq : p ≠ q := fun hh => hqfs (hh ▸ hp')
            exact Or.inr (Or.inl ⟨p, hp',
              by rw [lookupA_insertA_ne _ _ _ _ hpq]; exact hl⟩)
        · rcases List.mem_cons.mp hp with rfl | hp'
          · rw [hq] at hs
            simp at hs
          · have hpq : p ≠ q := fun hh => hqfs (hh ▸ hp')
            exact Or.inr (Or.inr ⟨rfl, p, hp',
              by rw [lookupA_insertA_ne _ _ _ _ hpq]; exact hs⟩)

/-- Recording one more entry extends the path-under-hash relation by that
entry's own pairs. -/
theorem pairIn_append (done : List (String × HashEntry)) (x : String × HashEntry)
    (h p : String) :
    pairIn (done ++ [x]) h p ↔ pairIn done h p ∨ (h = x.1 ∧ p ∈ x.2.files) := by
  unfold pairIn
  constructor
  · rintro ⟨e, he, hp⟩
    rcases List.mem_append.mp he with h1 | h1
    · exact Or.inl ⟨e, h1, hp⟩
    · rw [List.mem_singleton] at h1
      subst h1
      exact Or.inr ⟨rfl, hp⟩
  · rintro (⟨e, he, hp⟩ | ⟨rfl, hp⟩)
    · exact ⟨e, List.mem_append.mpr (Or.inl he), hp⟩
    · exact ⟨x.2, List.mem_append.mpr (Or.inr (by simp)), hp⟩

/-- A hash recording a path is a key of the entry list. -/
theorem pairIn_key (l : List (String × HashEntry)) (h p : String)
    (hp : pairIn l h p) : h ∈ l.map Prod.fst := by
  obtain ⟨e, he, _⟩ := hp
  exact List.mem_map_of_mem Prod.fst he

/-- Processing one entry with a fresh hash and duplicate-free files
preserves the duplicate-tracking invariant. -/
theorem dpInv_extend (done : List (String × HashEntry)) (h₀ : String)
    (e₀ : HashEntry) (ftH : List (String × String)) (dups : List String)
    (hInv : DPInv done ftH dups) (hfresh : h₀ ∉ done.map Prod.fst)
    (hnd : e₀.files.Nodup) :
    DPInv (done ++ [(h₀, e₀)])
      (e₀.files.foldl (trackOne h₀) (ftH, dups)).1
      (e₀.files.foldl (trackOne h₀) (ftH, dups)).2 := by
  obtain ⟨hI1, hI2, hI3⟩ := hInv
  refine ⟨?_, ?_, ?_⟩
  · intro p h hl
    rw [trackFold_lookup] at hl
    by_cases hp : p ∈ e₀.files
    · rw [if_pos hp] at hl
      cases hl
      exact (pairIn_append done (h₀, e₀) _ p).mpr (Or.inr ⟨rfl, hp⟩)
    · rw [if_neg hp] at hl
      exact (pairIn_append done (h₀, e₀) h p).mpr (Or.inl (hI1 p h hl))
  · rintro p ⟨h, hp⟩
    rw [trackFold_lookup]
    by_cases hpe : p ∈ e₀.files
    · rw [if_pos hpe]
      rfl
    · rw [if_neg hpe]
      rcases (pairIn_append done (h₀, e₀) h p).mp hp with h1 | ⟨rfl, h2⟩
      · exact hI2 p ⟨h, h1⟩
      · exact absurd h2 hpe
  · intro h
    rw [trackFold_dups h₀ e₀.files ftH dups hnd h]
    unfold shared
    constructor
    · rintro (hd | ⟨p, hp, hl⟩ | ⟨rfl, p, hp, hs⟩)
      · obtain ⟨p, h', hp1, hp2, hne⟩ := (hI3 h).mp hd
        exact ⟨p, h', (pairIn_append _ _ _ _).mpr (Or.inl hp1),
          (pairIn_append _ _ _ _).mpr (Or.inl hp2), hne⟩
      · have hpi : pairIn done h p := hI1 p h hl
        have hne : h₀ ≠ h := fun hh => hfresh (hh ▸ pairIn_key done h p hpi)
        exact ⟨p, h₀, (pairIn_append _ _ _ _).mpr (Or.inl hpi),
          (pairIn_append _ _ _ _).mpr (Or.inr ⟨rfl, hp⟩), hne⟩
      · cases hs2 : lookupA ftH p with
        | none =>
          rw [hs2] at hs
          simp at hs
        | some h₁ =>
          have hpi : pairIn done h₁ p := hI1 p h₁ hs2
          have hne : h₁ ≠ h := fun hh => hfresh (hh ▸ pairIn_key done h₁ p hpi)
          exact ⟨p, h₁, (pairIn_append _ _ _ _).mpr (Or.inr ⟨rfl, hp⟩),
            (pairIn_append _ _ _ _).mpr (Or.inl hpi), hne⟩
    · rintro ⟨p, h', hp1, hp2, hne⟩
      rcases (pairIn_append _ _ _ _).mp hp1 with hp1d | ⟨rfl, hp1e⟩
      · rcases (pairIn_append _ _ _ _).mp hp2 with hp2d | ⟨heq, hp2e⟩
        · exact Or.inl ((hI3 h).mpr ⟨p, h', hp1d, hp2d, hne⟩)
        · subst heq
          cases hs2 : lookupA ftH p with
          | none =>
            have hsome := hI2 p ⟨h, hp1d⟩
            rw [hs2] at hsome
            simp at hsome
          | some h₁ =>
            by_cases hhh : h₁ = h
            · subst hhh
              exact Or.inr (Or.inl ⟨p, hp2e, hs2⟩)
            · have hpi1 : pairIn done h₁ p := hI1 p h₁ hs2
              exact Or.inl ((hI3 h).mpr ⟨p, h₁, hp1d, hpi1, hhh⟩)
      · rcases (pairIn_append _ _ _ _).mp hp2 with hp2d | ⟨heq, hp2e⟩
        · exact Or.inr (Or.inr ⟨rfl, p, hp1e, hI2 p ⟨h', hp2d⟩⟩)
        · exact absurd heq hne

/-- The duplicate-tracking invariant carries through the whole entry loop on
distinct keys with duplicate-free files lists. -/
theorem dupsLoop_inv (rest : List (String × HashEntry)) :
    ∀ (done : List (String × HashEntry)) (ftH : List (String × String))
      (dups : List String),
      DPInv done ftH dups →
      (∀ he ∈ rest, (he.2 : HashEntry).files.Nodup) →
      ((rest.map Prod.fst).Nodup) →
      (∀ k ∈ rest.map Prod.fst, k ∉ done.map Prod.fst) →
      DPInv (done ++ rest) (dupsLoop rest (ftH, dups)).1
        (dupsLoop rest (ftH, dups)).2 := by
  induction rest with
  | nil =>
    intro done ftH dups hInv _ _ _
    simpa using hInv
  | cons x rest ih =>
    obtain ⟨h₀, e₀⟩ := x
    intro done ftH dups hInv hndf hndk hdisj
    rw [List.map_cons, List.nodup_cons] at hndk
    obtain ⟨hh0, hndk'⟩ := hndk
    simp only [dupsLoop]
    have hfresh : h₀ ∉ done.map Prod.fst := hdisj h₀ (by simp)
    have hext := dpInv_extend done h₀ e₀ ftH dups hInv hfresh
      (hndf (h₀, e₀) (List.mem_cons_self _ _))
    have hdisj' : ∀ k ∈ rest.map Prod.fst,
        k ∉ (done ++ [(h₀, e₀)]).map Prod.fst := by
      intro k hk
      rw [List.map_append, List.mem_append]
      rintro (hc | hc)
      · exact hdisj k (by simp [hk]) hc
      · simp at hc
        subst hc
        exact hh0 hk
    have hrec := ih (done ++ [(h₀, e₀)])
      (e₀.files.foldl (trackOne h₀) (ftH, dups)).1
      (e₀.files.foldl (trackOne h₀) (ftH, dups)).2
      hext (fun he hm => hndf he (List.mem_cons_of_mem _ hm)) hndk' hdisj'
    simpa [List.append_assoc] using hrec

/-- C7: during one classification pass on a well-formed input (distinct
hash keys, duplicate-free files lists), a hash lands in the DuplicateSet
exactly when one of its recorded paths is also recorded under a different
hash; both hashes involved are flagged. -/
theorem C7_duplicates_characterization (pick : List String → String)
    (input : List (String × HashEntry))
    (hkeys : (input.map Prod.fst).Nodup)
    (hfiles : ∀ he ∈ input, (he.2 : HashEntry).files.Nodup) (h : String) :
    h ∈ (DetectionProcessor.process_json pick input).duplicates ↔
      ∃ p h', pairIn input h p ∧ pairIn input h' p ∧ h' ≠ h := by
  have hproj := processEntries_track pick input ⟨[], [], [], [], []⟩
  have hInv0 : DPInv [] [] [] := by
    refine ⟨?_, ?_, ?_⟩
    · intro p h hl
      simp [lookupA] at hl
    · rintro p ⟨h, e, he, _⟩
      simp at he
    · intro h
      constructor
      · intro hd
        simp at hd
      · rintro ⟨p, h', ⟨e, he, _⟩, _⟩
        simp at he
  have hmain := dupsLoop_inv input [] [] [] hInv0 hfiles hkeys (by simp)
  have hdup : (DetectionProcessor.process_json pick input).duplicates =
      (dupsLoop input ([], [])).2 := by
    simp only [DetectionProcessor.process_json]
    have hsnd := congrArg Prod.snd hproj
    simpa using hsnd
  rw [hdup]
  have h3 := hmain.2.2 h
  simpa [shared] using h3

/-- C7 witness: two distinct hashes record the same path; the first hash is
flagged as a duplicate. -/
theorem C7_duplicates_characterization_witness :
    "h1" ∈ (DetectionProcessor.process_json (fun l => l.headD "")
      [("h1", ⟨["p"], []⟩), ("h2", ⟨["p"], []⟩)]).duplicates :=
  (C7_duplicates_characterization (fun l => l.headD "")
    [("h1", ⟨["p"], []⟩), ("h2", ⟨["p"], []⟩)] (by decide) (by decide)
    "h1").mpr
    ⟨"p", "h2", ⟨⟨["p"], []⟩, by decide, by decide⟩,
      ⟨⟨["p"], []⟩, by decide, by decide⟩, by decide⟩
